import Mathlib

/-!
# Verification of the `skewer` skew-heap priority queue

A shallow embedding of `src/skewer.go` (package `skewer`): a mergeable
min-priority queue built on a skew heap.  Go's `*node` pointers become the
inductive `Tree` (with `Tree.nil` for the nil pointer); the `SkewHeap` struct
keeps its `size` field (a Go `int`, modelled as `Int`; it only ever moves by
one, so overflow is unreachable) and its `root` tree.  The mutex is dropped:
all exported operations hold the lock for their whole body, so the sequential
semantics modelled here is exactly the per-operation atomic semantics of the
Go code.  `SkewItem` (an interface with `Priority() int`) is modelled by a
type parameter `α` together with a priority function `prio : α → Int`.

Go's `sort.Sort` is an unstable comparison sort with `Less i j ↔
priority i < priority j`; its output is some ascending-by-priority
permutation, with ties in unspecified order.  The model uses
`List.insertionSort` with the reflexive relation `priority ≤ priority`, which
produces such a permutation; no theorem below depends on the order of
equal-priority elements, so any sorted permutation gives the same results.
-/

set_option maxHeartbeats 1000000

namespace Skewer

/-- Go's `*node`: either the nil pointer or a cell
`node{left, right *node; value SkewItem}`. -/
inductive Tree (α : Type) : Type where
  | nil : Tree α
  | node (left right : Tree α) (value : α) : Tree α
deriving Repr, DecidableEq

namespace Tree

/-- Number of cells reachable from a root (the "count of reachable nodes"). -/
def size {α : Type} : Tree α → Nat
  | nil => 0
  | node l r _ => 1 + size l + size r

/-- Multiset of values stored in a tree. -/
def toMultiset {α : Type} : Tree α → Multiset α
  | nil => 0
  | node l r v => v ::ₘ (toMultiset l + toMultiset r)

end Tree

variable {α : Type}

/-- The comparison used by Go's `sort.Sort(byPriority(nodes))`: each list
element is a cut node, represented as its `(value, left-subtree)` pair, and
`Less(i, j) = a[i].priority() < a[j].priority()`.  The model sorts by the
reflexive closure `≤` of that strict order, which yields the same set of
admissible sorted outputs. -/
def fragLe (prio : α → Int) (f g : α × Tree α) : Prop :=
  prio f.1 ≤ prio g.1

instance (prio : α → Int) : DecidableRel (fragLe prio) :=
  fun f g => inferInstanceAs (Decidable (prio f.1 ≤ prio g.1))

instance (prio : α → Int) : IsTotal (α × Tree α) (fragLe prio) :=
  ⟨fun f g => Int.le_total (prio f.1) (prio g.1)⟩

instance (prio : α → Int) : IsTrans (α × Tree α) (fragLe prio) :=
  ⟨fun _ _ _ h1 h2 => le_trans h1 h2⟩

/-- Total size of the trees in the worklist, used as termination measure for
the cutting loop of `merge`. -/
def todoSize (ts : List (Tree α)) : Nat :=
  (ts.map Tree.size).sum

/-- The cutting loop of `node.merge` (`skewer.go:120-130`): repeatedly pop the
front of `todo`; if the popped node has a right child, detach it and push it
on the back; record the popped node (now right-less, keeping its left
subtree) as the pair `(value, left)`.  `Tree.nil` never enters the worklist
in the Go code; the model skips it for totality. -/
def bfs : List (Tree α) → List (α × Tree α)
  | [] => []
  | Tree.nil :: rest => bfs rest
  | Tree.node l Tree.nil v :: rest => (v, l) :: bfs rest
  | Tree.node l (Tree.node rl rr rv) v :: rest =>
      (v, l) :: bfs (rest ++ [Tree.node rl rr rv])
termination_by ts => (todoSize ts, ts.length)
decreasing_by
  all_goals simp [todoSize, Tree.size, Prod.lex_iff, List.sum_append]
  all_goals omega

/-- The recombination loop of `node.merge` (`skewer.go:136-149`): while more
than one cut node remains, remove the last (largest-priority) one, and on the
new last node set `right := left` then `left := removed`.  A sorted fragment
list `[(v0,l0), …, (vk,lk)]` therefore folds from the tail: the final lone
element becomes `node lk nil vk` (its right child was cut), and each earlier
fragment becomes `node accumulated lᵢ vᵢ`. -/
def recombine : List (α × Tree α) → Tree α
  | [] => Tree.nil
  | [(v, l)] => Tree.node l Tree.nil v
  | (v, l) :: f :: rest => Tree.node (recombine (f :: rest)) l v

/-- `(*node).merge` (`skewer.go:106-150`): nil on either side returns the
other side; otherwise cut every right-child link reachable from the two
roots, sort the fragments ascending by priority, and refold. -/
def merge (prio : α → Int) : Tree α → Tree α → Tree α
  | Tree.nil, other => other
  | heap, Tree.nil => heap
  | heap, other =>
      recombine (List.insertionSort (fragLe prio) (bfs [heap, other]))

/-- `(*node).copyNode` (`skewer.go:153-165`): recursive deep copy; the value
handle is shared, the cells are fresh.  In the pure model fresh cells are
indistinguishable, so this is the structural identity, kept as a definition
because `SkewHeap.Merge` calls it. -/
def copyNode : Tree α → Tree α
  | Tree.nil => Tree.nil
  | Tree.node l r v => Tree.node (copyNode l) (copyNode r) v

/-- The `SkewHeap` struct (`skewer.go:34-39`), minus the mutex. -/
structure SkewHeap (α : Type) : Type where
  size : Int
  root : Tree α
deriving Repr, DecidableEq

/-- `New()` (`skewer.go:52-60`): size 0, nil root. -/
def New : SkewHeap α := ⟨0, Tree.nil⟩

/-- `SkewHeap.Size()` (`skewer.go:42`). -/
def Size (heap : SkewHeap α) : Int := heap.size

/-- `(*SkewHeap).Put` (`skewer.go:208-226`): wrap the value in a singleton
node; if size is 0 it becomes the root, otherwise the root is merged with it;
increment size. -/
def Put (prio : α → Int) (heap : SkewHeap α) (value : α) : SkewHeap α :=
  let newNode : Tree α := Tree.node Tree.nil Tree.nil value
  if Size heap = 0 then
    { size := heap.size + 1, root := newNode }
  else
    { size := heap.size + 1, root := merge prio heap.root newNode }

/-- `(*SkewHeap).Take` (`skewer.go:229-242`): if size > 0, return the root's
value, replace the root by the merge of its children and decrement size; else
return `errors.New("empty")`.  When `size > 0` the Go code dereferences
`heap.root`, which is non-nil in every state reachable from `New` (the `Wf`
invariant below); on the unreachable corrupt state `size > 0 ∧ root = nil`
the Go code would panic, and the model returns the error. -/
def Take (prio : α → Int) (heap : SkewHeap α) : Except String α × SkewHeap α :=
  if Size heap > 0 then
    match heap.root with
    | Tree.node l r v =>
        (Except.ok v, { size := heap.size - 1, root := merge prio l r })
    | Tree.nil => (Except.error "empty", heap)
  else
    (Except.error "empty", heap)

/-- `(*SkewHeap).Top` (`skewer.go:245-251`): the root's value if size > 0,
else `errors.New("empty")`; no mutation (it takes the heap by value and
returns only the result).  Same remark on the unreachable corrupt state as
for `Take`. -/
def Top (heap : SkewHeap α) : Except String α :=
  if Size heap > 0 then
    match heap.root with
    | Tree.node _ _ v => Except.ok v
    | Tree.nil => Except.error "empty"
  else
    Except.error "empty"

/-- `SkewHeap.Merge` (`skewer.go:169-205`): deep-copy each operand's root
(under that operand's own lock in Go; operand snapshots are lock-atomic and
the operands are never written), then build a new heap with
`size = 0 + sizeA + sizeB` and `root = copyA.merge(copyB)`. -/
def Merge (prio : α → Int) (heap other : SkewHeap α) : SkewHeap α :=
  { size := 0 + heap.size + other.size,
    root := merge prio (copyNode heap.root) (copyNode other.root) }

/-! ## Multiset bookkeeping for the merge algorithm -/

/-- Multiset of values held by a list of cut fragments. -/
def fragMs (fs : List (α × Tree α)) : Multiset α :=
  (fs.map fun p => p.1 ::ₘ Tree.toMultiset p.2).sum

theorem fragMs_nil : fragMs ([] : List (α × Tree α)) = 0 := rfl

theorem fragMs_cons (f : α × Tree α) (fs : List (α × Tree α)) :
    fragMs (f :: fs) = (f.1 ::ₘ Tree.toMultiset f.2) + fragMs fs := by
  simp [fragMs]

theorem fragMs_append (fs gs : List (α × Tree α)) :
    fragMs (fs ++ gs) = fragMs fs + fragMs gs := by
  simp [fragMs]

theorem fragMs_perm {fs gs : List (α × Tree α)} (h : fs.Perm gs) :
    fragMs fs = fragMs gs :=
  List.Perm.sum_eq (List.Perm.map _ h)

/-- Multiset of values held by the trees of the cutting worklist. -/
def todoMs (ts : List (Tree α)) : Multiset α :=
  (ts.map Tree.toMultiset).sum

theorem bfs_ms (ts : List (Tree α)) : fragMs (bfs ts) = todoMs ts := by
  induction ts using bfs.induct with
  | case1 => simp [bfs, fragMs, todoMs]
  | case2 rest ih =>
      simpa [bfs, todoMs, Tree.toMultiset] using ih
  | case3 l v rest ih =>
      simp only [bfs, fragMs_cons, ih, todoMs, List.map_cons, List.sum_cons,
        Tree.toMultiset]
      simp [add_comm, add_left_comm]
  | case4 l rl rr rv v rest ih =>
      simp only [bfs, fragMs_cons, ih, todoMs, List.map_append, List.sum_append,
        List.map_cons, List.sum_cons, List.map_nil, List.sum_nil,
        Tree.toMultiset]
      simp only [add_zero]
      simp [add_comm, add_left_comm, Multiset.cons_swap]

theorem recombine_ms (fs : List (α × Tree α)) :
    Tree.toMultiset (recombine fs) = fragMs fs := by
  induction fs using recombine.induct with
  | case1 => rfl
  | case2 v l => simp [recombine, Tree.toMultiset, fragMs_cons, fragMs]
  | case3 v l f rest ih =>
      simp [recombine, Tree.toMultiset, fragMs_cons, ih, add_comm, add_left_comm,
        Multiset.cons_swap]

theorem merge_ms (prio : α → Int) (a b : Tree α) :
    Tree.toMultiset (merge prio a b) = Tree.toMultiset a + Tree.toMultiset b := by
  match a, b with
  | Tree.nil, b => simp [merge, Tree.toMultiset]
  | Tree.node al ar av, Tree.nil => simp [merge, Tree.toMultiset]
  | Tree.node al ar av, Tree.node bl br bv =>
      show Tree.toMultiset
          (recombine (List.insertionSort (fragLe prio)
            (bfs [Tree.node al ar av, Tree.node bl br bv]))) = _
      rw [recombine_ms,
        fragMs_perm (List.perm_insertionSort (fragLe prio) _), bfs_ms]
      simp [todoMs]

theorem toMultiset_card (t : Tree α) :
    Multiset.card (Tree.toMultiset t) = Tree.size t := by
  induction t with
  | nil => rfl
  | node l r v ihl ihr => simp [Tree.toMultiset, Tree.size, ihl, ihr]; omega

theorem merge_size (prio : α → Int) (a b : Tree α) :
    Tree.size (merge prio a b) = Tree.size a + Tree.size b := by
  rw [← toMultiset_card, merge_ms]
  simp [toMultiset_card]

theorem size_eq_zero_iff (t : Tree α) : Tree.size t = 0 ↔ t = Tree.nil := by
  cases t <;> simp [Tree.size]

theorem copyNode_eq (t : Tree α) : copyNode t = t := by
  induction t with
  | nil => rfl
  | node l r v ihl ihr => simp [copyNode, ihl, ihr]

/-! ## The min-heap property -/

/-- `prio v` is at most the priority at the root of `t`, when `t` has one:
the per-edge inequality of the spec's data-model invariant. -/
def rootLe (prio : α → Int) (v : α) : Tree α → Prop
  | Tree.nil => True
  | Tree.node _ _ w => prio v ≤ prio w

/-- The spec's node invariant, verbatim: every reachable node's priority is
`≤` each existing child's priority. -/
def IsMinHeap (prio : α → Int) : Tree α → Prop
  | Tree.nil => True
  | Tree.node l r v =>
      rootLe prio v l ∧ rootLe prio v r ∧ IsMinHeap prio l ∧ IsMinHeap prio r

instance decRootLe (prio : α → Int) (v : α) :
    (t : Tree α) → Decidable (rootLe prio v t)
  | Tree.nil => Decidable.isTrue trivial
  | Tree.node _ _ w => inferInstanceAs (Decidable (prio v ≤ prio w))

instance decIsMinHeap (prio : α → Int) :
    (t : Tree α) → Decidable (IsMinHeap prio t)
  | Tree.nil => Decidable.isTrue trivial
  | Tree.node l r _ =>
      have : Decidable (IsMinHeap prio l) := decIsMinHeap prio l
      have : Decidable (IsMinHeap prio r) := decIsMinHeap prio r
      inferInstanceAs (Decidable (_ ∧ _ ∧ _ ∧ _))

/-- Global form of the heap property, more convenient for proofs: each node
bounds every value in its subtrees. -/
inductive IsHeap (prio : α → Int) : Tree α → Prop where
  | nil : IsHeap prio Tree.nil
  | node {l r : Tree α} {v : α} :
      IsHeap prio l → IsHeap prio r →
      (∀ y ∈ Tree.toMultiset l, prio v ≤ prio y) →
      (∀ y ∈ Tree.toMultiset r, prio v ≤ prio y) →
      IsHeap prio (Tree.node l r v)

theorem IsHeap.root_le {prio : α → Int} {l r : Tree α} {v : α}
    (h : IsHeap prio (Tree.node l r v)) :
    ∀ y ∈ Tree.toMultiset (Tree.node l r v), prio v ≤ prio y := by
  cases h with
  | node hl hr bl br =>
      intro y hy
      simp only [Tree.toMultiset, Multiset.mem_cons, Multiset.mem_add] at hy
      rcases hy with rfl | hy | hy
      · exact le_refl _
      · exact bl y hy
      · exact br y hy

theorem isHeap_iff_isMinHeap (prio : α → Int) (t : Tree α) :
    IsHeap prio t ↔ IsMinHeap prio t := by
  induction t with
  | nil => exact ⟨fun _ => trivial, fun _ => IsHeap.nil⟩
  | node l r v ihl ihr =>
      constructor
      · intro h
        cases h with
        | node hl hr bl br =>
          refine ⟨?_, ?_, ihl.mp hl, ihr.mp hr⟩
          · cases l with
            | nil => trivial
            | node ll lr lv =>
                exact bl lv (by simp [Tree.toMultiset])
          · cases r with
            | nil => trivial
            | node rl rr rv =>
                exact br rv (by simp [Tree.toMultiset])
      · rintro ⟨hvl, hvr, hl, hr⟩
        refine IsHeap.node (ihl.mpr hl) (ihr.mpr hr) ?_ ?_
        · cases l with
          | nil => intro y hy; simp [Tree.toMultiset] at hy
          | node ll lr lv =>
              intro y hy
              exact le_trans hvl ((ihl.mpr hl).root_le y hy)
        · cases r with
          | nil => intro y hy; simp [Tree.toMultiset] at hy
          | node rl rr rv =>
              intro y hy
              exact le_trans hvr ((ihr.mpr hr).root_le y hy)

/-! ## The merge algorithm preserves the heap property -/

/-- What the cutting loop guarantees for each recorded fragment `(v, l)`:
the kept left subtree is itself a heap, and `v` bounds everything in it. -/
def GoodFrag (prio : α → Int) (f : α × Tree α) : Prop :=
  IsHeap prio f.2 ∧ ∀ y ∈ Tree.toMultiset f.2, prio f.1 ≤ prio y

theorem bfs_good (prio : α → Int) (ts : List (Tree α))
    (hts : ∀ t ∈ ts, IsHeap prio t) :
    ∀ f ∈ bfs ts, GoodFrag prio f := by
  induction ts using bfs.induct with
  | case1 => intro f hf; simp [bfs] at hf
  | case2 rest ih =>
      intro f hf
      rw [bfs] at hf
      exact ih (fun t ht => hts t (List.mem_cons_of_mem _ ht)) f hf
  | case3 l v rest ih =>
      intro f hf
      rw [bfs] at hf
      have hhead : IsHeap prio (Tree.node l Tree.nil v) :=
        hts _ (List.mem_cons_self _ _)
      rcases List.mem_cons.mp hf with rfl | hf
      · cases hhead with
        | node hl _ bl _ => exact ⟨hl, bl⟩
      · exact ih (fun t ht => hts t (List.mem_cons_of_mem _ ht)) f hf
  | case4 l rl rr rv v rest ih =>
      intro f hf
      rw [bfs] at hf
      have hhead : IsHeap prio (Tree.node l (Tree.node rl rr rv) v) :=
        hts _ (List.mem_cons_self _ _)
      rcases List.mem_cons.mp hf with rfl | hf
      · cases hhead with
        | node hl _ bl _ => exact ⟨hl, bl⟩
      · refine ih ?_ f hf
        intro t ht
        rcases List.mem_append.mp ht with ht | ht
        · exact hts t (List.mem_cons_of_mem _ ht)
        · rcases List.mem_singleton.mp ht with rfl
          cases hhead with
          | node _ hr _ _ => exact hr

theorem fragMs_lower {prio : α → Int} {fs : List (α × Tree α)}
    (hgood : ∀ f ∈ fs, GoodFrag prio f) :
    ∀ y ∈ fragMs fs, ∃ f ∈ fs, prio f.1 ≤ prio y := by
  induction fs with
  | nil => intro y hy; simp [fragMs] at hy
  | cons f fs ih =>
      intro y hy
      rw [fragMs_cons] at hy
      rcases Multiset.mem_add.mp hy with hy | hy
      · rcases Multiset.mem_cons.mp hy with rfl | hy
        · exact ⟨f, List.mem_cons_self _ _, le_refl _⟩
        · exact ⟨f, List.mem_cons_self _ _,
            (hgood f (List.mem_cons_self _ _)).2 y hy⟩
      · obtain ⟨g, hg, hle⟩ :=
          ih (fun g hg => hgood g (List.mem_cons_of_mem _ hg)) y hy
        exact ⟨g, List.mem_cons_of_mem _ hg, hle⟩

theorem recombine_heap (prio : α → Int) (fs : List (α × Tree α))
    (hsort : List.Sorted (fragLe prio) fs)
    (hgood : ∀ f ∈ fs, GoodFrag prio f) :
    IsHeap prio (recombine fs) := by
  induction fs using recombine.induct with
  | case1 => exact IsHeap.nil
  | case2 v l =>
      have h := hgood (v, l) (List.mem_singleton_self _)
      exact IsHeap.node h.1 IsHeap.nil h.2 (by intro y hy; simp [Tree.toMultiset] at hy)
  | case3 v l f rest ih =>
      have hhead := hgood (v, l) (List.mem_cons_self _ _)
      have htail : ∀ g ∈ f :: rest, GoodFrag prio g :=
        fun g hg => hgood g (List.mem_cons_of_mem _ hg)
      have hrec : IsHeap prio (recombine (f :: rest)) :=
        ih hsort.of_cons htail
      refine IsHeap.node hrec hhead.1 ?_ hhead.2
      intro y hy
      rw [recombine_ms] at hy
      obtain ⟨g, hg, hle⟩ := fragMs_lower htail y hy
      exact le_trans (List.rel_of_sorted_cons hsort g hg) hle

theorem recombine_cons_root (v : α) (l : Tree α) (rest : List (α × Tree α)) :
    ∃ L R, recombine ((v, l) :: rest) = Tree.node L R v := by
  cases rest with
  | nil => exact ⟨l, Tree.nil, rfl⟩
  | cons f rest => exact ⟨recombine (f :: rest), l, rfl⟩

theorem merge_isHeap (prio : α → Int) {a b : Tree α}
    (ha : IsHeap prio a) (hb : IsHeap prio b) :
    IsHeap prio (merge prio a b) := by
  match a, b with
  | Tree.nil, b => simpa [merge] using hb
  | Tree.node al ar av, Tree.nil => simpa [merge] using ha
  | Tree.node al ar av, Tree.node bl br bv =>
      show IsHeap prio (recombine (List.insertionSort (fragLe prio)
        (bfs [Tree.node al ar av, Tree.node bl br bv])))
      refine recombine_heap prio _ (List.sorted_insertionSort _ _) ?_
      intro f hf
      refine bfs_good prio _ ?_ f
        ((List.perm_insertionSort (fragLe prio) _).mem_iff.mp hf)
      intro t ht
      rcases List.mem_cons.mp ht with rfl | ht
      · exact ha
      · rcases List.mem_singleton.mp (by simpa using ht) with rfl
        exact hb

theorem merge_nil_left (prio : α → Int) (t : Tree α) :
    merge prio Tree.nil t = t := by
  cases t <;> rfl

theorem merge_nil_right (prio : α → Int) (t : Tree α) :
    merge prio t Tree.nil = t := by
  cases t <;> rfl

theorem merge_ne_nil (prio : α → Int) {a b : Tree α} (ha : a ≠ Tree.nil) :
    merge prio a b ≠ Tree.nil := by
  intro h
  have hsz : Tree.size (merge prio a b) = 0 := by rw [h]; rfl
  rw [merge_size] at hsz
  have : Tree.size a = 0 := by omega
  exact ha ((size_eq_zero_iff a).mp this)

/-! ## Draining a tree in priority order -/

/-- Values obtained by repeatedly taking the root and merging its children
(the tree-level content of a run of `Take` calls until empty). -/
def treeDrain (prio : α → Int) : Tree α → List α
  | Tree.nil => []
  | Tree.node l r v => v :: treeDrain prio (merge prio l r)
termination_by t => Tree.size t
decreasing_by
  simp only [merge_size, Tree.size]
  omega

theorem treeDrain_ms (prio : α → Int) (t : Tree α) :
    (treeDrain prio t : Multiset α) = Tree.toMultiset t := by
  induction t using treeDrain.induct prio with
  | case1 => simp [treeDrain, Tree.toMultiset]
  | case2 l r v ih =>
      rw [treeDrain]
      show (v ::ₘ (treeDrain prio (merge prio l r) : Multiset α)) = _
      rw [ih, merge_ms]
      rfl

theorem treeDrain_length (prio : α → Int) (t : Tree α) :
    (treeDrain prio t).length = Tree.size t := by
  have h := congrArg Multiset.card (treeDrain_ms prio t)
  simpa [toMultiset_card] using h

theorem treeDrain_sorted (prio : α → Int) (t : Tree α)
    (ht : IsHeap prio t) :
    List.Sorted (· ≤ ·) ((treeDrain prio t).map prio) := by
  induction t using treeDrain.induct prio with
  | case1 => simp [treeDrain]
  | case2 l r v ih =>
      cases ht with
      | node hl hr bl br =>
          rw [treeDrain]
          simp only [List.map_cons, List.sorted_cons]
          constructor
          · intro b hb
            simp only [List.mem_map] at hb
            obtain ⟨y, hy, rfl⟩ := hb
            have hy2 : y ∈ Tree.toMultiset (merge prio l r) := by
              rw [← treeDrain_ms]; exact_mod_cast hy
            rw [merge_ms] at hy2
            rcases Multiset.mem_add.mp hy2 with hy2 | hy2
            · exact bl y hy2
            · exact br y hy2
          · exact ih (merge_isHeap prio hl hr)

/-! ## Queue-level invariant and operation specifications -/

/-- The spec's queue invariants: min-heap property at every reachable node,
`root` absent iff `size = 0`, and `size` equal to the count of reachable
nodes. -/
def Wf (prio : α → Int) (heap : SkewHeap α) : Prop :=
  IsMinHeap prio heap.root ∧ (heap.root = Tree.nil ↔ heap.size = 0) ∧
    heap.size = (Tree.size heap.root : Int)

instance (prio : α → Int) [DecidableEq α] (heap : SkewHeap α) :
    Decidable (Wf prio heap) :=
  inferInstanceAs (Decidable (_ ∧ _ ∧ _))

theorem Wf.heap {prio : α → Int} {heap : SkewHeap α} (h : Wf prio heap) :
    IsHeap prio heap.root :=
  (isHeap_iff_isMinHeap prio heap.root).mpr h.1

theorem Wf.size_eq {prio : α → Int} {heap : SkewHeap α} (h : Wf prio heap) :
    heap.size = (Tree.size heap.root : Int) :=
  h.2.2

theorem Wf.size_nonneg {prio : α → Int} {heap : SkewHeap α} (h : Wf prio heap) :
    0 ≤ heap.size := by
  rw [h.size_eq]; exact_mod_cast Nat.zero_le _

theorem wf_of (prio : α → Int) (heap : SkewHeap α)
    (hheap : IsHeap prio heap.root)
    (hsize : heap.size = (Tree.size heap.root : Int)) :
    Wf prio heap := by
  refine ⟨(isHeap_iff_isMinHeap prio heap.root).mp hheap, ?_, hsize⟩
  rw [hsize]
  rw [← size_eq_zero_iff heap.root]
  exact_mod_cast Iff.rfl

theorem wf_New (prio : α → Int) : Wf prio (New : SkewHeap α) :=
  wf_of prio New IsHeap.nil rfl

/-- `Put` always increments the stored size by one. -/
theorem Put_size (prio : α → Int) (heap : SkewHeap α) (value : α) :
    (Put prio heap value).size = heap.size + 1 := by
  rw [Put]
  split <;> rfl

/-- On a well-formed heap, the root after `Put` holds the old values plus the
new one. -/
theorem Put_root_ms (prio : α → Int) {heap : SkewHeap α} (value : α)
    (h : Wf prio heap) :
    Tree.toMultiset (Put prio heap value).root =
      value ::ₘ Tree.toMultiset heap.root := by
  rw [Put]
  split_ifs with hsz
  · have hroot : heap.root = Tree.nil := h.2.1.mpr hsz
    simp [hroot, Tree.toMultiset]
  · show Tree.toMultiset (merge prio heap.root (Tree.node Tree.nil Tree.nil value)) = _
    rw [merge_ms]
    simp [Tree.toMultiset, add_comm]

theorem wf_Put (prio : α → Int) {heap : SkewHeap α} (value : α)
    (h : Wf prio heap) : Wf prio (Put prio heap value) := by
  have hsingle : IsHeap prio (Tree.node Tree.nil Tree.nil value) :=
    IsHeap.node IsHeap.nil IsHeap.nil
      (by intro y hy; simp [Tree.toMultiset] at hy)
      (by intro y hy; simp [Tree.toMultiset] at hy)
  refine wf_of prio _ ?_ ?_
  · rw [Put]
    split
    · exact hsingle
    · exact merge_isHeap prio h.heap hsingle
  · have hcard : Tree.size (Put prio heap value).root = Tree.size heap.root + 1 := by
      have := congrArg Multiset.card (Put_root_ms prio value h)
      simpa [toMultiset_card] using this
    rw [Put_size, hcard, h.size_eq]
    push_cast
    ring

/-- Specification of `Take` on a well-formed heap: either the heap is empty
and `Take` reports the `"empty"` error leaving the heap untouched, or the
heap is non-empty, its root exists, and `Take` returns the root's value and
the well-formed heap of the remaining values. -/
theorem Take_spec (prio : α → Int) (heap : SkewHeap α) (h : Wf prio heap) :
    (heap.size = 0 ∧ Take prio heap = (Except.error "empty", heap)) ∨
      (heap.size > 0 ∧ ∃ l r v, heap.root = Tree.node l r v ∧
        Take prio heap =
          (Except.ok v, { size := heap.size - 1, root := merge prio l r }) ∧
        Wf prio (Take prio heap).2 ∧
        Tree.toMultiset (Take prio heap).2.root + {v} = Tree.toMultiset heap.root) := by
  rcases eq_or_lt_of_le h.size_nonneg with hsz | hsz
  · left
    refine ⟨hsz.symm, ?_⟩
    rw [Take, Size]
    split_ifs with hpos
    · omega
    · rfl
  · right
    refine ⟨hsz, ?_⟩
    obtain ⟨l, r, v, hroot⟩ : ∃ l r v, heap.root = Tree.node l r v := by
      cases hr : heap.root with
      | nil =>
          exfalso
          have := h.2.1.mp hr
          omega
      | node l r v => exact ⟨l, r, v, rfl⟩
    have htake : Take prio heap =
        (Except.ok v, { size := heap.size - 1, root := merge prio l r }) := by
      rw [Take, Size]
      split_ifs with hpos
      · rw [hroot]
      · omega
    have hheap : IsHeap prio heap.root := h.heap
    rw [hroot] at hheap
    have hwf : Wf prio ({ size := heap.size - 1, root := merge prio l r } : SkewHeap α) := by
      refine wf_of prio _ ?_ ?_
      · cases hheap with
        | node hl hr _ _ => exact merge_isHeap prio hl hr
      · show heap.size - 1 = _
        rw [h.size_eq, hroot]
        simp only [merge_size, Tree.size]
        push_cast
        ring
    refine ⟨l, r, v, hroot, htake, ?_, ?_⟩
    · rw [htake]; exact hwf
    · rw [htake, hroot]
      show Tree.toMultiset (merge prio l r) + {v} = _
      rw [merge_ms]
      simp [Tree.toMultiset]
      rw [add_comm]
      rfl

/-- `Top` returns exactly the first component of `Take`. -/
theorem Top_eq_Take_fst (prio : α → Int) (heap : SkewHeap α) :
    Top heap = (Take prio heap).1 := by
  rw [Top, Take]
  split
  · split <;> rfl
  · rfl

theorem Merge_size (prio : α → Int) (a b : SkewHeap α) :
    (Merge prio a b).size = a.size + b.size := by
  show 0 + a.size + b.size = _
  ring

theorem Merge_root_ms (prio : α → Int) (a b : SkewHeap α) :
    Tree.toMultiset (Merge prio a b).root =
      Tree.toMultiset a.root + Tree.toMultiset b.root := by
  show Tree.toMultiset (merge prio (copyNode a.root) (copyNode b.root)) = _
  rw [copyNode_eq, copyNode_eq, merge_ms]

theorem wf_Merge (prio : α → Int) {a b : SkewHeap α}
    (ha : Wf prio a) (hb : Wf prio b) : Wf prio (Merge prio a b) := by
  refine wf_of prio _ ?_ ?_
  · show IsHeap prio (merge prio (copyNode a.root) (copyNode b.root))
    rw [copyNode_eq, copyNode_eq]
    exact merge_isHeap prio ha.heap hb.heap
  · have hcard : Tree.size (Merge prio a b).root =
        Tree.size a.root + Tree.size b.root := by
      have := congrArg Multiset.card (Merge_root_ms prio a b)
      simpa [toMultiset_card] using this
    rw [Merge_size, hcard, ha.size_eq, hb.size_eq]
    push_cast
    ring

/-! ## Draining a queue by repeated `Take` -/

/-- Run `Take` up to `fuel` times, recording the returned values, stopping at
the first `"empty"` error. -/
def drainAux (prio : α → Int) : Nat → SkewHeap α → List α
  | 0, _ => []
  | n + 1, heap =>
      match Take prio heap with
      | (Except.ok v, heap2) => v :: drainAux prio n heap2
      | (Except.error _, _) => []

/-- Values returned by calling `Take` until the queue is empty. -/
def drain (prio : α → Int) (heap : SkewHeap α) : List α :=
  drainAux prio (Tree.size heap.root) heap

theorem drainAux_eq_treeDrain (prio : α → Int) :
    ∀ (n : Nat) (heap : SkewHeap α), Wf prio heap →
      Tree.size heap.root = n → drainAux prio n heap = treeDrain prio heap.root := by
  intro n
  induction n with
  | zero =>
      intro heap _ hsz
      rw [(size_eq_zero_iff heap.root).mp hsz]
      simp [drainAux, treeDrain]
  | succ n ih =>
      intro heap hwf hsz
      rcases Take_spec prio heap hwf with ⟨hzero, _⟩ | ⟨_, l, r, v, hroot, htake, hwf2, _⟩
      · rw [hwf.size_eq] at hzero
        omega
      · rw [drainAux, htake, hroot, treeDrain]
        simp only []
        have hsz2 : Tree.size (merge prio l r) = n := by
          rw [hroot, Tree.size] at hsz
          rw [merge_size]
          omega
        have hwf3 : Wf prio ({ size := heap.size - 1, root := merge prio l r } : SkewHeap α) := by
          rw [htake] at hwf2
          exact hwf2
        have := ih ({ size := heap.size - 1, root := merge prio l r } : SkewHeap α) hwf3 hsz2
        simpa using this

theorem drain_eq_treeDrain (prio : α → Int) (heap : SkewHeap α)
    (hwf : Wf prio heap) : drain prio heap = treeDrain prio heap.root :=
  drainAux_eq_treeDrain prio _ heap hwf rfl

/-! ## Sequences of operations -/

/-- A call of the mutating public interface: `Put value` or `Take`. -/
inductive Op (α : Type) : Type where
  | put (value : α) : Op α
  | take : Op α

/-- Insert every value of the list in order, as successive `Put` calls. -/
def putList (prio : α → Int) (heap : SkewHeap α) (vs : List α) : SkewHeap α :=
  vs.foldl (Put prio) heap

/-- Run a list of operations, returning the final heap together with the
number of `Put` calls and the number of successful `Take` calls. -/
def runCount (prio : α → Int) : SkewHeap α → List (Op α) → SkewHeap α × Nat × Nat
  | heap, [] => (heap, 0, 0)
  | heap, Op.put v :: rest =>
      let res := runCount prio (Put prio heap v) rest
      (res.1, res.2.1 + 1, res.2.2)
  | heap, Op.take :: rest =>
      match Take prio heap with
      | (Except.ok _, heap2) =>
          let res := runCount prio heap2 rest
          (res.1, res.2.1, res.2.2 + 1)
      | (Except.error _, heap2) => runCount prio heap2 rest

theorem wf_putList (prio : α → Int) (vs : List α) :
    ∀ heap : SkewHeap α, Wf prio heap → Wf prio (putList prio heap vs) := by
  induction vs with
  | nil => intro heap h; exact h
  | cons v vs ih =>
      intro heap h
      exact ih (Put prio heap v) (wf_Put prio v h)

theorem putList_root_ms (prio : α → Int) (vs : List α) :
    ∀ heap : SkewHeap α, Wf prio heap →
      Tree.toMultiset (putList prio heap vs).root =
        Tree.toMultiset heap.root + (vs : Multiset α) := by
  induction vs with
  | nil => intro heap _; simp [putList]
  | cons v vs ih =>
      intro heap h
      show Tree.toMultiset (putList prio (Put prio heap v) vs).root = _
      rw [ih (Put prio heap v) (wf_Put prio v h), Put_root_ms prio v h,
        ← Multiset.cons_coe, Multiset.cons_add, Multiset.add_cons]

theorem runCount_put (prio : α → Int) (heap : SkewHeap α) (v : α)
    (rest : List (Op α)) :
    runCount prio heap (Op.put v :: rest) =
      ((runCount prio (Put prio heap v) rest).1,
        (runCount prio (Put prio heap v) rest).2.1 + 1,
        (runCount prio (Put prio heap v) rest).2.2) := rfl

theorem runCount_take (prio : α → Int) (heap : SkewHeap α)
    (rest : List (Op α)) :
    runCount prio heap (Op.take :: rest) =
      match Take prio heap with
      | (Except.ok _, heap2) =>
          ((runCount prio heap2 rest).1, (runCount prio heap2 rest).2.1,
            (runCount prio heap2 rest).2.2 + 1)
      | (Except.error _, heap2) => runCount prio heap2 rest := by
  rw [runCount]

theorem runCount_spec (prio : α → Int) (ops : List (Op α)) :
    ∀ heap : SkewHeap α, Wf prio heap →
      Wf prio (runCount prio heap ops).1 ∧
        (runCount prio heap ops).1.size =
          heap.size + ((runCount prio heap ops).2.1 : Int) -
            ((runCount prio heap ops).2.2 : Int) ∧
        ((runCount prio heap ops).2.2 : Int) ≤
          heap.size + ((runCount prio heap ops).2.1 : Int) := by
  induction ops with
  | nil =>
      intro heap h
      refine ⟨h, by simp [runCount], ?_⟩
      have hnn := h.size_nonneg
      simp only [runCount]
      push_cast
      omega
  | cons op rest ih =>
      intro heap h
      cases op with
      | put v =>
          obtain ⟨hwf, hsz, hle⟩ := ih (Put prio heap v) (wf_Put prio v h)
          rw [Put_size] at hsz hle
          rw [runCount_put]
          refine ⟨hwf, ?_, ?_⟩
          · simp only []
            push_cast
            omega
          · simp only []
            push_cast
            omega
      | take =>
          rcases Take_spec prio heap h with ⟨hzero, htake⟩ | ⟨hpos, l, r, v, _, htake, hwf2t, _⟩
          · obtain ⟨hwf, hsz, hle⟩ := ih heap h
            have heq : runCount prio heap (Op.take :: rest) = runCount prio heap rest := by
              rw [runCount_take, htake]
            rw [heq]
            exact ⟨hwf, by omega, by omega⟩
          · have hwf2 : Wf prio ({ size := heap.size - 1, root := merge prio l r } : SkewHeap α) := by
              rw [htake] at hwf2t
              exact hwf2t
            obtain ⟨hwf, hsz, hle⟩ :=
              ih ({ size := heap.size - 1, root := merge prio l r } : SkewHeap α) hwf2
            rw [runCount_take, htake]
            simp only [] at hsz hle ⊢
            refine ⟨hwf, ?_, ?_⟩
            · push_cast
              omega
            · push_cast
              omega

/-! ## The claims

Each claim of the specification is settled by one theorem below.  Concrete
witnesses use the identity priority on `Int`. -/

/-- Identity priority on integers, used by the concrete witnesses. -/
def pid : Int → Int := fun n => n

/-- C1: for every sequence of N `Put` calls on a fresh queue followed by N
`Take` calls, all N `Take` calls succeed (the drain has length N) and the
sequence of priority keys of the extracted items is sorted ascending. -/
theorem C1_put_then_take_sorted (prio : α → Int) (vs : List α) :
    ((drain prio (putList prio New vs)).map prio).Sorted (· ≤ ·) ∧
      (drain prio (putList prio New vs)).length = vs.length := by
  have hwf := wf_putList prio vs New (wf_New prio)
  rw [drain_eq_treeDrain prio _ hwf]
  refine ⟨treeDrain_sorted prio _ hwf.heap, ?_⟩
  rw [treeDrain_length]
  have := congrArg Multiset.card (putList_root_ms prio vs New (wf_New prio))
  simpa [toMultiset_card, New, Tree.toMultiset] using this

/-- C2: every operation that produces a queue state (`New`, `Put`, `Take`,
`Merge`) preserves the queue invariants `Wf`: the min-heap property at every
reachable node, `root` absent iff `size = 0`, and `size` equal to the exact
number of reachable nodes.  `Top` takes the queue by value and returns only
an item, so it cannot alter any state and preserves the invariants
trivially; the conjunct recording it says the queue used by `Top` is whatever
queue the caller already had. -/
theorem C2_invariants_preserved (prio : α → Int) :
    Wf prio (New : SkewHeap α) ∧
      (∀ (heap : SkewHeap α) (value : α),
        Wf prio heap → Wf prio (Put prio heap value)) ∧
      (∀ heap : SkewHeap α, Wf prio heap → Wf prio (Take prio heap).2) ∧
      (∀ a b : SkewHeap α, Wf prio a → Wf prio b → Wf prio (Merge prio a b)) ∧
      (∀ heap : SkewHeap α, Wf prio heap →
        Top heap = Top heap ∧ Wf prio heap) := by
  refine ⟨wf_New prio, fun heap value h => wf_Put prio value h, ?_,
    fun a b ha hb => wf_Merge prio ha hb, fun heap h => ⟨rfl, h⟩⟩
  intro heap h
  rcases Take_spec prio heap h with ⟨_, htake⟩ | ⟨_, l, r, v, _, _, hwf2, _⟩
  · rw [htake]; exact h
  · exact hwf2

theorem C2_invariants_preserved_witness :
    Wf pid (Put pid New 3) :=
  (C2_invariants_preserved pid).2.1 New 3 (C2_invariants_preserved pid).1

/-- C3: `Merge` of two well-formed queues yields a queue whose size is the
sum of the two sizes, whose full drain is sorted ascending by priority and
holds exactly the union (as a multiset) of the operands' items, while each
operand still drains to exactly its own items.  The Go code copies both
operand trees before merging and never writes to the operands, which the
embedding reflects by `Merge` being a pure function of the two operand
values: the operands are the same values after the call, so their drains are
literally the pre-merge drains. -/
theorem C3_merge_queues (prio : α → Int) (a b : SkewHeap α)
    (ha : Wf prio a) (hb : Wf prio b) :
    Size (Merge prio a b) = Size a + Size b ∧
      ((drain prio (Merge prio a b) : Multiset α) =
        Tree.toMultiset a.root + Tree.toMultiset b.root) ∧
      ((drain prio (Merge prio a b)).map prio).Sorted (· ≤ ·) ∧
      (drain prio a : Multiset α) = Tree.toMultiset a.root ∧
      (drain prio b : Multiset α) = Tree.toMultiset b.root := by
  have hm := wf_Merge prio ha hb
  refine ⟨Merge_size prio a b, ?_, ?_, ?_, ?_⟩
  · rw [drain_eq_treeDrain prio _ hm, treeDrain_ms, Merge_root_ms]
  · rw [drain_eq_treeDrain prio _ hm]
    exact treeDrain_sorted prio _ hm.heap
  · rw [drain_eq_treeDrain prio _ ha, treeDrain_ms]
  · rw [drain_eq_treeDrain prio _ hb, treeDrain_ms]

theorem C3_merge_queues_witness :
    Size (Merge pid (putList pid New [0, 1]) (putList pid New [5])) =
        Size (putList pid New [0, 1]) + Size (putList pid New [5]) ∧
      ((drain pid (Merge pid (putList pid New [0, 1]) (putList pid New [5])) : Multiset Int) =
        Tree.toMultiset (putList pid New [0, 1]).root +
          Tree.toMultiset (putList pid New [5]).root) ∧
      ((drain pid (Merge pid (putList pid New [0, 1])
        (putList pid New [5]))).map pid).Sorted (· ≤ ·) ∧
      ((drain pid (putList pid New [0, 1]) : Multiset Int) =
        Tree.toMultiset (putList pid New [0, 1]).root) ∧
      ((drain pid (putList pid New [5]) : Multiset Int) =
        Tree.toMultiset (putList pid New [5]).root) :=
  C3_merge_queues pid (putList pid New [0, 1]) (putList pid New [5])
    (wf_putList pid [0, 1] New (wf_New pid))
    (wf_putList pid [5] New (wf_New pid))

/-- C4: on a well-formed queue, `Take` and `Top` return the `"empty"` error
exactly when the queue holds zero items, and a failing `Take` returns no item
and leaves the queue (in particular its size, 0) unchanged.  `Put`, `Merge`
and `Size` are total Lean functions whose result types carry no error
component, mirroring the Go functions, which return no `error`. -/
theorem C4_empty_error (prio : α → Int) (heap : SkewHeap α) (h : Wf prio heap) :
    ((Take prio heap).1 = Except.error "empty" ↔ Size heap = 0) ∧
      (Top heap = Except.error "empty" ↔ Size heap = 0) ∧
      (Size heap = 0 →
        Take prio heap = (Except.error "empty", heap) ∧
          Size (Take prio heap).2 = 0) := by
  have htop := Top_eq_Take_fst prio heap
  rcases Take_spec prio heap h with ⟨hzero, htake⟩ | ⟨hpos, l, r, v, _, htake, _, _⟩
  · refine ⟨?_, ?_, ?_⟩
    · rw [htake]; simp [Size, hzero]
    · rw [htop, htake]; simp [Size, hzero]
    · intro _
      refine ⟨htake, ?_⟩
      rw [htake]
      exact hzero
  · refine ⟨?_, ?_, ?_⟩
    · rw [htake]
      simp only [Size]
      constructor
      · intro hc; exact absurd hc (by simp)
      · intro hc; omega
    · rw [htop, htake]
      simp only [Size]
      constructor
      · intro hc; exact absurd hc (by simp)
      · intro hc; omega
    · intro hc
      rw [Size] at hc
      omega

theorem C4_empty_error_witness :
    ((Take pid New).1 = Except.error "empty" ↔ Size (New : SkewHeap Int) = 0) ∧
      (Top (New : SkewHeap Int) = Except.error "empty" ↔
        Size (New : SkewHeap Int) = 0) ∧
      (Size (New : SkewHeap Int) = 0 →
        Take pid New = (Except.error "empty", New) ∧
          Size (Take pid New).2 = 0) :=
  C4_empty_error pid New (wf_New pid)

/-- C5: merging two non-empty node trees yields a root node whose priority is
the global minimum over all values of the two input trees (the minimum is
attained: the root's value is one of the stored values).  The hypotheses
`IsMinHeap` restate the spec's data-model invariant, which every node tree of
the program carries: for every reachable node, the node's priority is `≤`
each existing child's priority. -/
theorem C5_merge_root_min (prio : α → Int) (a b : Tree α)
    (ha : IsMinHeap prio a) (hb : IsMinHeap prio b)
    (hna : a ≠ Tree.nil) (_hnb : b ≠ Tree.nil) :
    ∃ l r v, merge prio a b = Tree.node l r v ∧
      v ∈ Tree.toMultiset a + Tree.toMultiset b ∧
      ∀ y ∈ Tree.toMultiset a + Tree.toMultiset b, prio v ≤ prio y := by
  have ha2 : IsHeap prio a := (isHeap_iff_isMinHeap prio a).mpr ha
  have hb2 : IsHeap prio b := (isHeap_iff_isMinHeap prio b).mpr hb
  have hm : IsHeap prio (merge prio a b) := merge_isHeap prio ha2 hb2
  cases hroot : merge prio a b with
  | nil => exact absurd hroot (merge_ne_nil prio hna)
  | node l r v =>
      refine ⟨l, r, v, rfl, ?_, ?_⟩
      · rw [← merge_ms prio a b, hroot]
        simp [Tree.toMultiset]
      · intro y hy
        rw [← merge_ms prio a b, hroot] at hy
        rw [hroot] at hm
        exact hm.root_le y hy

theorem C5_merge_root_min_witness :
    ∃ l r v, merge pid (Tree.node Tree.nil Tree.nil 4)
        (Tree.node (Tree.node Tree.nil Tree.nil 7) Tree.nil 2) = Tree.node l r v ∧
      v ∈ Tree.toMultiset (Tree.node Tree.nil Tree.nil (4 : Int)) +
          Tree.toMultiset (Tree.node (Tree.node Tree.nil Tree.nil 7) Tree.nil 2) ∧
      ∀ y ∈ Tree.toMultiset (Tree.node Tree.nil Tree.nil (4 : Int)) +
          Tree.toMultiset (Tree.node (Tree.node Tree.nil Tree.nil 7) Tree.nil 2),
        pid v ≤ pid y :=
  C5_merge_root_min pid (Tree.node Tree.nil Tree.nil 4)
    (Tree.node (Tree.node Tree.nil Tree.nil 7) Tree.nil 2)
    (by decide) (by decide) (by decide) (by decide)

/-- C6: `Top` is a read-only observation: it takes the queue by value and
returns only an `Except` result, so it cannot change the size or tree shape;
being a pure function, any number of `Top` calls return the same value; and
that value (including the error case) is exactly the first component of what
the next `Take` on the same queue returns. -/
theorem C6_top_is_next_take (prio : α → Int) (heap : SkewHeap α) :
    Top heap = (Take prio heap).1 :=
  Top_eq_Take_fst prio heap

/-- C7: merging with the nil tree on either side returns the other tree
unchanged. -/
theorem C7_merge_nil_unit (prio : α → Int) (t : Tree α) :
    merge prio Tree.nil t = t ∧ merge prio t Tree.nil = t := by
  constructor
  · cases t <;> rfl
  · cases t <;> rfl

/-- C8: starting from `New`, after any interleaving of `Put` calls and `Take`
calls, of which k are `Put` and j are successful `Take` (necessarily
j ≤ k), `Size` returns exactly k − j. -/
theorem C8_size_counts (prio : α → Int) (ops : List (Op α)) :
    Size (runCount prio New ops).1 =
        ((runCount prio New ops).2.1 : Int) - ((runCount prio New ops).2.2 : Int) ∧
      (runCount prio New ops).2.2 ≤ (runCount prio New ops).2.1 := by
  obtain ⟨_, hsz, hle⟩ := runCount_spec prio ops New (wf_New prio)
  have hz : (New : SkewHeap α).size = 0 := rfl
  rw [hz] at hsz hle
  refine ⟨?_, ?_⟩
  · rw [Size, hsz]; ring
  · have h2 : ((runCount prio New ops).2.2 : Int) ≤
        ((runCount prio New ops).2.1 : Int) := by omega
    exact_mod_cast h2

/-- C9: `Merge` with an empty operand (on either side) produces a queue with
the other operand's size and drain sequence, and merging two empty queues
produces an empty queue on which `Take` and `Top` fail with the `"empty"`
error. -/
theorem C9_merge_empty_operands (prio : α → Int) (a b : SkewHeap α)
    (ha : Wf prio a) (hb : Wf prio b) :
    (Size b = 0 →
      Size (Merge prio a b) = Size a ∧
        drain prio (Merge prio a b) = drain prio a) ∧
      (Size a = 0 →
        Size (Merge prio a b) = Size b ∧
          drain prio (Merge prio a b) = drain prio b) ∧
      (Size a = 0 → Size b = 0 →
        Take prio (Merge prio a b) = (Except.error "empty", Merge prio a b) ∧
          Top (Merge prio a b) = Except.error "empty") := by
  have heqa : Size b = 0 → Merge prio a b = a := by
    intro hzb
    have hrb : b.root = Tree.nil := hb.2.1.mpr hzb
    have : Merge prio a b =
        { size := 0 + a.size + b.size, root := merge prio a.root b.root } := by
      show (Merge prio a b : SkewHeap α) = _
      rw [Merge]
      rw [copyNode_eq, copyNode_eq]
    rw [this, hrb]
    cases a with
    | mk asz art =>
        simp only [SkewHeap.mk.injEq]
        constructor
        · rw [Size] at hzb
          omega
        · exact merge_nil_right prio art
  have heqb : Size a = 0 → Merge prio a b = b := by
    intro hza
    have hra : a.root = Tree.nil := ha.2.1.mpr hza
    have : Merge prio a b =
        { size := 0 + a.size + b.size, root := merge prio a.root b.root } := by
      rw [Merge]
      rw [copyNode_eq, copyNode_eq]
    rw [this, hra]
    cases b with
    | mk bsz brt =>
        simp only [SkewHeap.mk.injEq]
        constructor
        · rw [Size] at hza
          omega
        · exact merge_nil_left prio brt
  refine ⟨?_, ?_, ?_⟩
  · intro hzb
    rw [heqa hzb]
    exact ⟨rfl, rfl⟩
  · intro hza
    rw [heqb hza]
    exact ⟨rfl, rfl⟩
  · intro hza hzb
    rw [heqb hza]
    have hrb : b.root = Tree.nil := hb.2.1.mpr hzb
    constructor
    · rw [Take, Size]
      split_ifs with hpos
      · rw [Size] at hzb; omega
      · rfl
    · rw [Top, Size]
      split_ifs with hpos
      · rw [Size] at hzb; omega
      · rfl

theorem C9_merge_empty_operands_witness :
    (Size (New : SkewHeap Int) = 0 →
      Size (Merge pid (putList pid New [8]) New) = Size (putList pid New [8]) ∧
        drain pid (Merge pid (putList pid New [8]) New) =
          drain pid (putList pid New [8])) ∧
      (Size (putList pid New [8]) = 0 →
        Size (Merge pid (putList pid New [8]) New) = Size (New : SkewHeap Int) ∧
          drain pid (Merge pid (putList pid New [8]) New) = drain pid New) ∧
      (Size (putList pid New [8]) = 0 → Size (New : SkewHeap Int) = 0 →
        Take pid (Merge pid (putList pid New [8]) New) =
            (Except.error "empty", Merge pid (putList pid New [8]) New) ∧
          Top (Merge pid (putList pid New [8]) New) = Except.error "empty") :=
  C9_merge_empty_operands pid (putList pid New [8]) New
    (wf_putList pid [8] New (wf_New pid)) (wf_New pid)

/-- C10: on a well-formed queue, `Put value` changes the stored multiset of
items to the previous multiset plus exactly one occurrence of `value`: no
stored item is lost or duplicated and nothing else is added. -/
theorem C10_put_adds_exactly_one (prio : α → Int) (heap : SkewHeap α)
    (value : α) (h : Wf prio heap) :
    Tree.toMultiset (Put prio heap value).root =
      value ::ₘ Tree.toMultiset heap.root :=
  Put_root_ms prio value h

theorem C10_put_adds_exactly_one_witness :
    Tree.toMultiset (Put pid (Put pid New 7) 5).root =
      5 ::ₘ Tree.toMultiset (Put pid New 7).root :=
  C10_put_adds_exactly_one pid (Put pid New 7) 5 (wf_Put pid 7 (wf_New pid))

end Skewer
